import Mathlib

/-!
Shallow embedding of the SMA-crossover backtesting core
(`src/trading-simulator/backtest.py`).

Modelling conventions:
* Prices, returns, positions, costs and equity values are rationals (`ℚ`),
  giving the exact arithmetic the series computations perform.
* A pandas `NaN` entry of a series is modelled as `none : Option ℚ`
  (`NaN` propagates through arithmetic; comparisons with it are `false`;
  `fillna`/`dropna` become `Option.getD` / `List.filterMap id`).
* The `float` fields `cagr`/`sharpe` of the `Perf` dataclass can hold the
  sentinel value `np.nan`; they are modelled by `PyFloat`, a real number or
  the distinguished `nan` value.  Their defined values involve real
  exponentiation and square roots, hence `ℝ`.
-/

namespace Backtest

/-- Result value of a Python `float` field that may hold `np.nan`. -/
inductive PyFloat where
  | num (x : ℝ)
  | nan

/-- The `Perf` dataclass of `backtest.py`. -/
structure Perf where
  final_equity : ℚ
  cagr : PyFloat
  sharpe : PyFloat
  max_dd : ℚ
  max_dd_days : ℕ

/-- Embedding of `Close.rolling(w, min_periods=w).mean()`: entry `t` is the
mean of the `w` closes ending at `t` when the window is full (`w ≤ t+1`,
`w ≥ 1`), and `NaN` (`none`) otherwise. -/
def rollingMean (closes : List ℚ) (w : ℕ) : List (Option ℚ) :=
  (List.range closes.length).map fun t =>
    if 1 ≤ w ∧ w ≤ t + 1 then
      some ((((closes.take (t + 1)).drop (t + 1 - w)).sum) / (w : ℚ))
    else none

/-- Embedding of the elementwise comparison `(sma_fast > sma_slow).astype(int)`:
a comparison involving `NaN` is `False`, so the signal is `1` exactly when both
averages are defined and the fast one is strictly greater. -/
def signalOf : Option ℚ → Option ℚ → ℚ
  | some a, some b => if b < a then 1 else 0
  | _, _ => 0

/-- Embedding of `signal.shift(1).fillna(0)`. -/
def shiftFill (xs : List ℚ) : List ℚ :=
  match xs with
  | [] => []
  | _ :: _ => 0 :: xs.dropLast

/-- The columns added by `sma_crossover_signals`. -/
structure SignalFrame where
  sma_fast : List (Option ℚ)
  sma_slow : List (Option ℚ)
  signal : List ℚ
  position : List ℚ

/-- Embedding of `sma_crossover_signals`: dual rolling means, binary signal,
and the position lagged by one bar.  The Python function performs no input
validation and raises nothing; it is total. -/
def sma_crossover_signals (closes : List ℚ) (fast slow : ℕ) : SignalFrame :=
  let sf := rollingMean closes fast
  let sl := rollingMean closes slow
  let sig := List.zipWith signalOf sf sl
  { sma_fast := sf, sma_slow := sl, signal := sig, position := shiftFill sig }

/-- Error taxonomy that the spec assigns to the SignalEngine (section 7). -/
inductive SigError where
  | InvalidWindow
  | InsufficientData

/-- Modelled from the spec: `computeSignals` as section 4.1 describes it,
with the validation the spec requires at entry (`InvalidWindow` when
`fast ≥ slow` or either window is `≤ 0`, `InsufficientData` on an empty
sequence) before the computation that `sma_crossover_signals` performs.
This definition exists only to compare the error behaviour the spec asks
for with the code, which contains no such validation. -/
def computeSignals_specModel (closes : List ℚ) (fast slow : ℕ) :
    Except SigError SignalFrame :=
  if slow ≤ fast ∨ fast = 0 ∨ slow = 0 then .error .InvalidWindow
  else if closes.length = 0 then .error .InsufficientData
  else .ok (sma_crossover_signals closes fast slow)

/-- Embedding of `apply_transaction_costs`:
`trades = pos.diff().abs().fillna(pos.abs()); return trades * rate`. -/
def apply_transaction_costs (pos : List ℚ) (rate : ℚ) : List ℚ :=
  (List.range pos.length).map fun t =>
    if t = 0 then |pos.getD 0 0| * rate
    else |pos.getD t 0 - pos.getD (t - 1) 0| * rate

/-- Embedding of `strat_ret = df["position"] * df["ret"] - costs`.
A `NaN` return makes the strategy return `NaN` at that index. -/
def strat_ret (position : List ℚ) (ret : List (Option ℚ)) (rate : ℚ) :
    List (Option ℚ) :=
  List.zipWith (fun pr c => pr.map fun x => x - c)
    (List.zipWith (fun p r => r.map fun x => p * x) position ret)
    (apply_transaction_costs position rate)

/-- Running product with seed `a` (helper for `cumprod`). -/
def cumprodFrom (a : ℚ) : List ℚ → List ℚ
  | [] => []
  | x :: xs => (a * x) :: cumprodFrom (a * x) xs

/-- Embedding of `Series.cumprod()`. -/
def cumprod (xs : List ℚ) : List ℚ := cumprodFrom 1 xs

/-- Embedding of `eq_s = (1 + strat_ret.fillna(0)).cumprod()`. -/
def eq_s (position : List ℚ) (ret : List (Option ℚ)) (rate : ℚ) : List ℚ :=
  cumprod ((strat_ret position ret rate).map fun o => 1 + o.getD 0)

/-- Embedding of `daily = strat_ret.dropna()`. -/
def daily (position : List ℚ) (ret : List (Option ℚ)) (rate : ℚ) : List ℚ :=
  (strat_ret position ret rate).filterMap id

/-- Running maximum with seed `m` (helper for `roll_max`). -/
def cummaxFrom (m : ℚ) : List ℚ → List ℚ
  | [] => []
  | x :: xs => max m x :: cummaxFrom (max m x) xs

/-- Embedding of `roll_max = eq_s.cummax()`. -/
def roll_max (xs : List ℚ) : List ℚ :=
  match xs with
  | [] => []
  | x :: rest => x :: cummaxFrom x rest

/-- Embedding of `dd = (eq_s / roll_max) - 1.0`. -/
def dd (eq : List ℚ) : List ℚ :=
  List.zipWith (fun e m => e / m - 1) eq (roll_max eq)

/-- Embedding of `max_dd = float(dd.min())` (for a nonempty series). -/
def max_dd (eq : List ℚ) : ℚ :=
  match dd eq with
  | [] => 0
  | h :: t => t.foldl min h

/-- Embedding of `underwater = dd < 0` (elementwise; `NaN`-free here since
rational division is total). -/
def underwater (eq : List ℚ) : List Bool :=
  (dd eq).map fun x => decide (x < 0)

/-- One step of the underwater-run scan:
`cur = cur + 1 if flag else 0; if cur > max_dd_days: max_dd_days = cur`. -/
def uwStep (s : ℕ × ℕ) (flag : Bool) : ℕ × ℕ :=
  let cur := if flag then s.1 + 1 else 0
  (cur, if s.2 < cur then cur else s.2)

/-- The underwater-run scan of `equity_and_perf`, as a left fold carrying
`(current_run, max_run)` started at `(0, 0)`. -/
def maxDDaysOf (flags : List Bool) : ℕ :=
  (flags.foldl uwStep (0, 0)).2

/-- Embedding of the `max_dd_days` loop applied to the underwater flags. -/
def max_dd_days (eq : List ℚ) : ℕ :=
  maxDDaysOf (underwater eq)

/-- Embedding of `cagr`: `np.nan` unless `n > 252`, in which case
`final_eq ** (252 / n) - 1` (real exponentiation). -/
noncomputable def cagrOf (finalEq : ℚ) (n : ℕ) : PyFloat :=
  if 252 < n then .num ((finalEq : ℝ) ^ ((252 : ℝ) / (n : ℝ)) - 1) else .nan

/-- Mean of the defined strategy returns (`daily.mean()`). -/
def muQ (d : List ℚ) : ℚ := d.sum / (d.length : ℚ)

/-- Bessel-corrected sample variance of the defined strategy returns
(the square of `daily.std(ddof=1)`). -/
def varQ (d : List ℚ) : ℚ :=
  (d.map fun x => (x - muQ d) ^ 2).sum / ((d.length : ℚ) - 1)

/-- Embedding of `sharpe = (mu / sigma) * np.sqrt(252) if sigma > 0 else np.nan`
where `mu` is the mean and `sigma` the Bessel-corrected sample standard
deviation of `daily`; `sigma` is `NaN` when `n ≤ 1` and the guard `sigma > 0`
is then `False`, so the condition is `2 ≤ n` together with positive sample
variance. -/
noncomputable def sharpeOf (d : List ℚ) : PyFloat :=
  if 2 ≤ d.length ∧ 0 < varQ d then
    .num (((muQ d : ℝ) / Real.sqrt (varQ d : ℝ)) * Real.sqrt 252)
  else .nan

/-- Embedding of the `Perf` result of the `equity_and_perf` function.
The expression `float(eq_s.iloc[-1])` raises on an empty series, modelled
as `none`. -/
noncomputable def equity_and_perf (position : List ℚ) (ret : List (Option ℚ))
    (cost_rate : ℚ) : Option Perf :=
  let eq := eq_s position ret cost_rate
  match eq.getLast? with
  | none => none
  | some finalEq =>
    let d := daily position ret cost_rate
    some { final_equity := finalEq
           cagr := cagrOf finalEq d.length
           sharpe := sharpeOf d
           max_dd := max_dd eq
           max_dd_days := max_dd_days eq }

/-- Contiguous run of `n` underwater bars starting at index `i` of the
drawdown series (what the spec calls a contiguous run where
`drawdown[t] < 0`). -/
def hasNegRun (d : List ℚ) (i n : ℕ) : Prop :=
  i + n ≤ d.length ∧ ∀ j, j < n → d.getD (i + j) 0 < 0

instance (d : List ℚ) (i n : ℕ) : Decidable (hasNegRun d i n) := by
  unfold hasNegRun; infer_instance

/-- Arithmetic mean of a list of rationals. -/
def meanQ (xs : List ℚ) : ℚ := xs.sum / (xs.length : ℚ)

/-- The closes `close[a..b]` (inclusive), read off by index. -/
def windowSlice (closes : List ℚ) (a b : ℕ) : List ℚ :=
  (List.range (b + 1 - a)).map fun j => closes.getD (a + j) 0

/-- Maximum value taken by the running underwater counter over a flag list,
starting from counter value `c` (recursive description of the scan in
`equity_and_perf`). -/
def maxCur (c : ℕ) : List Bool → ℕ
  | [] => 0
  | true :: rest => max (c + 1) (maxCur (c + 1) rest)
  | false :: rest => maxCur 0 rest

/-! ### Basic list facts used throughout -/

lemma getD_eq_get {α : Type _} (l : List α) (i : ℕ) (d : α) (h : i < l.length) :
    l.getD i d = l[i] := by
  simp [List.getD_eq_getElem?_getD, List.getElem?_eq_getElem h]

lemma length_rollingMean (closes : List ℚ) (w : ℕ) :
    (rollingMean closes w).length = closes.length := by
  simp [rollingMean]

lemma length_shiftFill (xs : List ℚ) : (shiftFill xs).length = xs.length := by
  cases xs <;> simp [shiftFill]

lemma length_signal (closes : List ℚ) (fast slow : ℕ) :
    (sma_crossover_signals closes fast slow).signal.length = closes.length := by
  simp [sma_crossover_signals, length_rollingMean]

lemma length_position (closes : List ℚ) (fast slow : ℕ) :
    (sma_crossover_signals closes fast slow).position.length = closes.length := by
  simp [sma_crossover_signals, length_shiftFill, length_rollingMean]

lemma shiftFill_getD_zero (xs : List ℚ) : (shiftFill xs).getD 0 0 = 0 := by
  cases xs <;> simp [shiftFill]

lemma shiftFill_getD (xs : List ℚ) (t : ℕ) (h1 : 1 ≤ t) (h2 : t < xs.length) :
    (shiftFill xs).getD t 0 = xs.getD (t - 1) 0 := by
  cases xs with
  | nil => simp at h2
  | cons a as =>
    obtain ⟨u, rfl⟩ : ∃ u, t = u + 1 := ⟨t - 1, by omega⟩
    have hu : u < (a :: as).length := by simp at h2 ⊢; omega
    have hd : u < ((a :: as).dropLast).length := by
      simp only [List.length_dropLast]; simp at h2 ⊢; omega
    rw [show shiftFill (a :: as) = 0 :: (a :: as).dropLast from rfl]
    rw [List.getD_cons_succ, Nat.add_sub_cancel, getD_eq_get _ _ _ hd,
      getD_eq_get _ _ _ hu, List.getElem_dropLast]

/-- C1: for every input observation sequence and window pair, the position
series satisfies `position[0] = 0` and `position[t] = signal[t-1]` for every
`t ≥ 1`; no position is derived from the same-bar signal. -/
theorem position_no_lookahead (closes : List ℚ) (fast slow : ℕ) :
    (sma_crossover_signals closes fast slow).position.getD 0 0 = 0 ∧
    ∀ t, 1 ≤ t → t < (sma_crossover_signals closes fast slow).position.length →
      (sma_crossover_signals closes fast slow).position.getD t 0 =
        (sma_crossover_signals closes fast slow).signal.getD (t - 1) 0 := by
  constructor
  · exact shiftFill_getD_zero _
  · intro t h1 h2
    have hps : (sma_crossover_signals closes fast slow).position =
        shiftFill ((sma_crossover_signals closes fast slow).signal) := rfl
    have h2s : t < (sma_crossover_signals closes fast slow).signal.length := by
      rw [length_signal]
      rw [length_position] at h2
      exact h2
    rw [hps]
    exact shiftFill_getD _ t h1 h2s

/-- Witness for C1 at prices `[100,105,103,110]`, `fast = 1`, `slow = 2`,
`t = 2`. -/
theorem position_no_lookahead_witness :
    (sma_crossover_signals [100, 105, 103, 110] 1 2).position.getD 2 0 =
      (sma_crossover_signals [100, 105, 103, 110] 1 2).signal.getD 1 0 :=
  (position_no_lookahead [100, 105, 103, 110] 1 2).2 2 (by decide) (by decide)

/-- C2 counterexample: with `fast = 3 ≥ slow = 2` on the nonempty input
`[1,2,3]` the spec model fails with `InvalidWindow`, but the code performs no
validation and returns an ordinary result (here, the all-flat position
series). -/
theorem signal_validation_cex :
    computeSignals_specModel [1, 2, 3] 3 2 = .error .InvalidWindow ∧
      (sma_crossover_signals [1, 2, 3] 3 2).position = [0, 0, 0] := by
  constructor
  · rfl
  · norm_num [sma_crossover_signals, rollingMean, signalOf, shiftFill,
      List.range_succ]

/-- C2 (amended): the signal computation performs no input validation; for
every input, including `fast ≥ slow`, zero windows, and the empty sequence,
it succeeds and returns series of the same length as the input. -/
theorem sma_crossover_signals_total (closes : List ℚ) (fast slow : ℕ) :
    (sma_crossover_signals closes fast slow).position.length = closes.length ∧
    (sma_crossover_signals closes fast slow).signal.length = closes.length ∧
    (sma_crossover_signals closes fast slow).sma_fast.length = closes.length ∧
    (sma_crossover_signals closes fast slow).sma_slow.length = closes.length :=
  ⟨length_position closes fast slow, length_signal closes fast slow,
    length_rollingMean closes fast, length_rollingMean closes slow⟩

/-! ### C3: rolling mean -/

lemma rollingMean_getD (closes : List ℚ) (w t : ℕ) (ht : t < closes.length) :
    (rollingMean closes w).getD t none =
      if 1 ≤ w ∧ w ≤ t + 1 then
        some ((((closes.take (t + 1)).drop (t + 1 - w)).sum) / (w : ℚ))
      else none := by
  rw [getD_eq_get _ _ _ (by rw [length_rollingMean]; exact ht)]
  simp [rollingMean]

lemma windowSlice_eq_drop_take (closes : List ℚ) (w t : ℕ) (hw : 1 ≤ w)
    (hle : w ≤ t + 1) (ht : t < closes.length) :
    (closes.take (t + 1)).drop (t + 1 - w) = windowSlice closes (t + 1 - w) t := by
  have hlen1 : ((closes.take (t + 1)).drop (t + 1 - w)).length = w := by
    simp only [List.length_drop, List.length_take]
    omega
  have hlen2 : (windowSlice closes (t + 1 - w) t).length = w := by
    simp only [windowSlice, List.length_map, List.length_range]
    omega
  apply List.ext_getElem (by rw [hlen1, hlen2])
  intro i h1 h2
  have hi : i < w := by rw [hlen1] at h1; exact h1
  have hidx : t + 1 - w + i < closes.length := by omega
  rw [List.getElem_drop, List.getElem_take]
  simp only [windowSlice, List.getElem_map, List.getElem_range,
    getD_eq_get _ _ _ hidx]

/-- C3: for every window length `w ≥ 1` and index `t`, the rolling mean is
undefined when `t < w - 1` (a partial window yields no value) and equals the
exact arithmetic mean of `close[t-w+1..t]` when `t ≥ w - 1`. -/
theorem rollingMean_spec (closes : List ℚ) (w t : ℕ) (hw : 1 ≤ w)
    (ht : t < closes.length) :
    (t + 1 < w → (rollingMean closes w).getD t none = none) ∧
    (w ≤ t + 1 → (rollingMean closes w).getD t none =
      some (meanQ (windowSlice closes (t + 1 - w) t))) := by
  constructor
  · intro hlt
    rw [rollingMean_getD closes w t ht, if_neg (by omega)]
  · intro hle
    rw [rollingMean_getD closes w t ht, if_pos ⟨hw, hle⟩]
    have hs := windowSlice_eq_drop_take closes w t hw hle ht
    have hlen2 : (windowSlice closes (t + 1 - w) t).length = w := by
      simp only [windowSlice, List.length_map, List.length_range]
      omega
    rw [meanQ, ← hs, hs, hlen2, ← hs]

/-- Witness for C3 at prices `[100,105,103,110]`, `w = 2`, `t = 1`. -/
theorem rollingMean_spec_witness :
    (1 + 1 < 2 → (rollingMean [100, 105, 103, 110] 2).getD 1 none = none) ∧
    (2 ≤ 1 + 1 → (rollingMean [100, 105, 103, 110] 2).getD 1 none =
      some (meanQ (windowSlice [100, 105, 103, 110] (1 + 1 - 2) 1))) :=
  rollingMean_spec [100, 105, 103, 110] 2 1 (by decide) (by decide)

/-! ### C4 and C9: transaction costs -/

lemma length_apply_transaction_costs (pos : List ℚ) (r : ℚ) :
    (apply_transaction_costs pos r).length = pos.length := by
  simp [apply_transaction_costs]

lemma apply_transaction_costs_getD (pos : List ℚ) (r : ℚ) (t : ℕ)
    (h : t < pos.length) :
    (apply_transaction_costs pos r).getD t 0 =
      if t = 0 then |pos.getD 0 0| * r
      else |pos.getD t 0 - pos.getD (t - 1) 0| * r := by
  rw [getD_eq_get _ _ _ (by rw [length_apply_transaction_costs]; exact h)]
  simp only [apply_transaction_costs, List.getElem_map, List.getElem_range]

/-- C4: the cost series satisfies `cost[0] = r * |position[0]|` and
`cost[t] = r * |position[t] - position[t-1]|` for `t ≥ 1`, for every
`{0,1}`-valued position series and rate `r ≥ 0`; the position series
`[0,1,0,1]` with `r = 1/100` yields costs `[0, 1/100, 1/100, 1/100]`. -/
theorem apply_transaction_costs_spec :
    (∀ (pos : List ℚ) (r : ℚ), (∀ x ∈ pos, x = 0 ∨ x = 1) → 0 ≤ r →
      ∀ t, t < pos.length →
        (apply_transaction_costs pos r).getD t 0 =
          if t = 0 then r * |pos.getD 0 0|
          else r * |pos.getD t 0 - pos.getD (t - 1) 0|) ∧
    apply_transaction_costs [0, 1, 0, 1] (1 / 100) = [0, 1 / 100, 1 / 100, 1 / 100] := by
  constructor
  · intro pos r _ _ t ht
    rw [apply_transaction_costs_getD pos r t ht]
    split <;> rw [mul_comm]
  · norm_num [apply_transaction_costs, List.range_succ]

/-- Witness for C4 at positions `[0,1]`, rate `1/100`, `t = 1`. -/
theorem apply_transaction_costs_spec_witness :
    (apply_transaction_costs [0, 1] (1 / 100)).getD 1 0 =
      if (1 : ℕ) = 0 then (1 / 100 : ℚ) * |([0, 1] : List ℚ).getD 0 0|
      else (1 / 100 : ℚ) * |([0, 1] : List ℚ).getD 1 0 - ([0, 1] : List ℚ).getD (1 - 1) 0| :=
  apply_transaction_costs_spec.1 [0, 1] (1 / 100)
    (by intro x hx; simpa using hx) (by norm_num) 1 (by decide)

lemma length_strat_ret (position : List ℚ) (ret : List (Option ℚ)) (rate : ℚ) :
    (strat_ret position ret rate).length = min position.length ret.length := by
  simp [strat_ret, length_apply_transaction_costs]

/-- C9: with rate `r = 0` every cost is `0` and the strategy return equals
`position[t] * return[t]` exactly at every index (a `NaN` return stays
`NaN`). -/
theorem zero_cost_roundtrip (position : List ℚ) (ret : List (Option ℚ)) :
    (∀ t, t < position.length → (apply_transaction_costs position 0).getD t 0 = 0) ∧
    (∀ t, t < (strat_ret position ret 0).length →
      (strat_ret position ret 0).getD t none =
        (ret.getD t none).map fun x => position.getD t 0 * x) := by
  constructor
  · intro t ht
    rw [apply_transaction_costs_getD position 0 t ht]
    split <;> simp
  · intro t ht
    have hlen := length_strat_ret position ret 0
    have htp : t < position.length := by rw [hlen] at ht; omega
    have htr : t < ret.length := by rw [hlen] at ht; omega
    have hcost : (apply_transaction_costs position 0).getD t 0 = 0 := by
      rw [apply_transaction_costs_getD position 0 t htp]
      split <;> simp
    rw [getD_eq_get _ _ _ ht, getD_eq_get _ _ _ htr, getD_eq_get _ _ _ htp]
    simp only [strat_ret, List.getElem_zipWith]
    rw [getD_eq_get _ _ _ (by rw [length_apply_transaction_costs]; exact htp)] at hcost
    rw [hcost]
    simp only [sub_zero, Option.map_map]
    rfl

/-- Witness for C9 at positions `[1]`, returns `[some 2]`, `t = 0`. -/
theorem zero_cost_roundtrip_witness :
    (apply_transaction_costs [1] 0).getD 0 0 = 0 ∧
    (strat_ret [1] [some 2] 0).getD 0 none =
      (([some 2] : List (Option ℚ)).getD 0 none).map
        fun x => ([1] : List ℚ).getD 0 0 * x :=
  ⟨(zero_cost_roundtrip [1] [some 2]).1 0 (by decide),
   (zero_cost_roundtrip [1] [some 2]).2 0 (by decide)⟩

/-! ### C8: drawdown invariant -/

lemma cumprodFrom_pos (xs : List ℚ) :
    ∀ a : ℚ, 0 < a → (∀ x ∈ xs, 0 < x) → ∀ y ∈ cumprodFrom a xs, 0 < y := by
  induction xs with
  | nil => intro a _ _ y hy; simp [cumprodFrom] at hy
  | cons x rest ih =>
    intro a ha hx y hy
    have hax : 0 < a * x := mul_pos ha (hx x (by simp))
    rcases (by simpa [cumprodFrom] using hy : y = a * x ∨ y ∈ cumprodFrom (a * x) rest) with
      h | h
    · rw [h]; exact hax
    · exact ih (a * x) hax (fun z hz => hx z (by simp [hz])) y h

lemma eq_s_pos (position : List ℚ) (ret : List (Option ℚ)) (rate : ℚ)
    (hpos : ∀ o ∈ strat_ret position ret rate, 0 < 1 + o.getD 0) :
    ∀ y ∈ eq_s position ret rate, 0 < y := by
  intro y hy
  refine cumprodFrom_pos _ 1 one_pos ?_ y hy
  intro x hx
  rcases List.mem_map.mp hx with ⟨o, ho, rfl⟩
  exact hpos o ho

lemma length_cummaxFrom (xs : List ℚ) : ∀ m, (cummaxFrom m xs).length = xs.length := by
  induction xs with
  | nil => intro m; rfl
  | cons x rest ih => intro m; simp [cummaxFrom, ih]

lemma length_roll_max (xs : List ℚ) : (roll_max xs).length = xs.length := by
  cases xs with
  | nil => rfl
  | cons x rest => simp [roll_max, length_cummaxFrom]

lemma le_cummaxFrom (xs : List ℚ) :
    ∀ m t, t < xs.length → xs.getD t 0 ≤ (cummaxFrom m xs).getD t 0 := by
  induction xs with
  | nil => intro m t ht; simp at ht
  | cons x rest ih =>
    intro m t ht
    cases t with
    | zero => simp [cummaxFrom]
    | succ u =>
      simp only [cummaxFrom, List.getD_cons_succ]
      exact ih (max m x) u (by simpa using ht)

lemma cummaxFrom_pos (xs : List ℚ) :
    ∀ m, 0 < m → ∀ t, t < xs.length → 0 < (cummaxFrom m xs).getD t 0 := by
  induction xs with
  | nil => intro m _ t ht; simp at ht
  | cons x rest ih =>
    intro m hm t ht
    cases t with
    | zero => simpa [cummaxFrom] using lt_of_lt_of_le hm (le_max_left m x)
    | succ u =>
      simp only [cummaxFrom, List.getD_cons_succ]
      exact ih (max m x) (lt_of_lt_of_le hm (le_max_left m x)) u (by simpa using ht)

lemma le_roll_max (xs : List ℚ) (t : ℕ) (ht : t < xs.length) :
    xs.getD t 0 ≤ (roll_max xs).getD t 0 := by
  cases xs with
  | nil => simp at ht
  | cons x rest =>
    cases t with
    | zero => simp [roll_max]
    | succ u =>
      simp only [roll_max, List.getD_cons_succ]
      exact le_cummaxFrom rest x u (by simpa using ht)

lemma roll_max_pos (xs : List ℚ) (hx : ∀ x ∈ xs, 0 < x) (t : ℕ)
    (ht : t < xs.length) : 0 < (roll_max xs).getD t 0 := by
  cases xs with
  | nil => simp at ht
  | cons x rest =>
    cases t with
    | zero => simpa [roll_max] using hx x (by simp)
    | succ u =>
      simp only [roll_max, List.getD_cons_succ]
      exact cummaxFrom_pos rest x (hx x (by simp)) u (by simpa using ht)

lemma length_dd (eq : List ℚ) : (dd eq).length = eq.length := by
  simp [dd, length_roll_max]

lemma dd_getD (eq : List ℚ) (t : ℕ) (ht : t < eq.length) :
    (dd eq).getD t 0 = eq.getD t 0 / (roll_max eq).getD t 0 - 1 := by
  have h1 : t < (dd eq).length := by rw [length_dd]; exact ht
  have h2 : t < (roll_max eq).length := by rw [length_roll_max]; exact ht
  rw [getD_eq_get _ _ _ h1, getD_eq_get _ _ _ ht, getD_eq_get _ _ _ h2]
  simp [dd]

lemma dd_nonpos_of_pos (eq : List ℚ) (hx : ∀ x ∈ eq, 0 < x) (t : ℕ)
    (ht : t < (dd eq).length) : (dd eq).getD t 0 ≤ 0 := by
  rw [length_dd] at ht
  rw [dd_getD eq t ht, sub_nonpos]
  rw [div_le_one (roll_max_pos eq hx t ht)]
  exact le_roll_max eq t ht

lemma foldl_min_le_init (l : List ℚ) : ∀ h : ℚ, l.foldl min h ≤ h := by
  induction l with
  | nil => intro h; simp
  | cons x rest ih =>
    intro h
    calc List.foldl min (min h x) rest ≤ min h x := ih (min h x)
    _ ≤ h := min_le_left h x

/-- C8 counterexample: with positions `[1,1]`, returns `[-3, 1]` and zero
rate the equity goes negative, and `drawdown[1] = 1 > 0`: the invariant
`drawdown[t] ≤ 0` does not hold for every input. -/
theorem drawdown_nonpos_cex :
    ¬ ((dd (eq_s [1, 1] [some (-3), some 1] 0)).getD 1 0 ≤ 0) := by
  norm_num [dd, eq_s, strat_ret, apply_transaction_costs, cumprod, cumprodFrom,
    roll_max, cummaxFrom, List.range_succ]

/-- C8 (amended): for every input whose compounding factors
`1 + strategy_return[t]` (undefined treated as `0`) are all positive — in
particular for any genuine price history with costs small enough that equity
stays positive — the drawdown series satisfies `drawdown[t] ≤ 0` for every
`t`, and `max_dd = min(drawdown) ≤ 0`. -/
theorem drawdown_nonpos (position : List ℚ) (ret : List (Option ℚ)) (rate : ℚ)
    (hpos : ∀ o ∈ strat_ret position ret rate, 0 < 1 + o.getD 0) :
    (∀ t, t < (dd (eq_s position ret rate)).length →
      (dd (eq_s position ret rate)).getD t 0 ≤ 0) ∧
    max_dd (eq_s position ret rate) ≤ 0 := by
  have hx := eq_s_pos position ret rate hpos
  constructor
  · exact fun t ht => dd_nonpos_of_pos _ hx t ht
  · unfold max_dd
    cases hdd : dd (eq_s position ret rate) with
    | nil => simp
    | cons h t =>
      have h0 : h ≤ 0 := by
        have := dd_nonpos_of_pos _ hx 0 (by rw [hdd]; simp)
        rwa [hdd, List.getD_cons_zero] at this
      exact le_trans (foldl_min_le_init t h) h0

/-- Witness for C8 at positions `[0]`, returns `[some 0]`, rate `0`. -/
theorem drawdown_nonpos_witness :
    (∀ t, t < (dd (eq_s [0] [some 0] 0)).length →
      (dd (eq_s [0] [some 0] 0)).getD t 0 ≤ 0) ∧
    max_dd (eq_s [0] [some 0] 0) ≤ 0 :=
  drawdown_nonpos [0] [some 0] 0 (by
    intro o ho
    simp [strat_ret, apply_transaction_costs, List.range_succ] at ho
    norm_num [ho])

/-! ### C7: the underwater-run scan computes the longest strictly-negative run -/

lemma uwStep_true (c m : ℕ) : uwStep (c, m) true = (c + 1, max m (c + 1)) := by
  simp [uwStep]
  split <;> omega

lemma uwStep_false (c m : ℕ) : uwStep (c, m) false = (0, m) := by
  simp [uwStep]

lemma foldl_uwStep_eq_maxCur (flags : List Bool) :
    ∀ c m, (flags.foldl uwStep (c, m)).2 = max m (maxCur c flags) := by
  induction flags with
  | nil => intro c m; simp [maxCur]
  | cons b rest ih =>
    intro c m
    cases b with
    | true =>
      rw [List.foldl_cons, uwStep_true, ih]
      simp only [maxCur]
      omega
    | false =>
      rw [List.foldl_cons, uwStep_false, ih]
      simp only [maxCur]

lemma maxDDaysOf_eq_maxCur (flags : List Bool) :
    maxDDaysOf flags = maxCur 0 flags := by
  unfold maxDDaysOf
  rw [foldl_uwStep_eq_maxCur]
  omega

lemma maxCur_run (flags : List Bool) :
    ∀ c, ∃ l₁ l₂, List.replicate c true ++ flags =
      l₁ ++ List.replicate (maxCur c flags) true ++ l₂ := by
  induction flags with
  | nil => exact fun c => ⟨List.replicate c true, [], by simp [maxCur]⟩
  | cons b rest ih =>
    intro c
    cases b with
    | true =>
      have hrw : List.replicate c true ++ true :: rest =
          List.replicate (c + 1) true ++ rest := by
        rw [List.replicate_succ']
        simp
      by_cases hm : maxCur (c + 1) rest ≤ c + 1
      · refine ⟨[], rest, ?_⟩
        rw [hrw]
        have hmc : maxCur c (true :: rest) = c + 1 := by
          simp only [maxCur]
          omega
        rw [hmc]
        simp
      · obtain ⟨l₁, l₂, h⟩ := ih (c + 1)
        refine ⟨l₁, l₂, ?_⟩
        rw [hrw, h]
        have hmc : maxCur c (true :: rest) = maxCur (c + 1) rest := by
          simp only [maxCur]
          omega
        rw [hmc]
    | false =>
      obtain ⟨l₁, l₂, h⟩ := ih 0
      simp only [List.replicate_zero, List.nil_append] at h
      refine ⟨List.replicate c true ++ false :: l₁, l₂, ?_⟩
      have hmc : maxCur c (false :: rest) = maxCur 0 rest := by
        simp only [maxCur]
      rw [hmc]
      conv_lhs => rw [h]
      simp [List.append_assoc]

lemma maxCur_mono_seed (flags : List Bool) :
    ∀ c c', c ≤ c' → maxCur c flags ≤ maxCur c' flags := by
  induction flags with
  | nil => intro c c' _; simp [maxCur]
  | cons b rest ih =>
    intro c c' hcc
    cases b with
    | true =>
      simp only [maxCur]
      exact max_le_max (by omega) (ih (c + 1) (c' + 1) (by omega))
    | false =>
      simp [maxCur]

lemma maxCur_replicate (l₂ : List Bool) :
    ∀ n c, 1 ≤ n → c + n ≤ maxCur c (List.replicate n true ++ l₂) := by
  intro n
  induction n with
  | zero => intro c h; omega
  | succ k ih =>
    intro c _
    rw [List.replicate_succ, List.cons_append]
    simp only [maxCur]
    cases Nat.eq_zero_or_pos k with
    | inl hk =>
      subst hk
      omega
    | inr hk =>
      have := ih (c + 1) hk
      omega

lemma maxCur_append_right (l₁ : List Bool) (rest : List Bool) :
    ∀ c, maxCur 0 rest ≤ maxCur c (l₁ ++ rest) := by
  induction l₁ with
  | nil => intro c; exact maxCur_mono_seed rest 0 c (Nat.zero_le c)
  | cons b l₁ ih =>
    intro c
    cases b with
    | true =>
      simp only [List.cons_append, maxCur]
      exact le_trans (ih (c + 1)) (le_max_right _ _)
    | false =>
      simp only [List.cons_append, maxCur]
      exact ih 0

lemma maxCur_maximal (flags : List Bool) (n : ℕ) (l₁ l₂ : List Bool)
    (h : flags = l₁ ++ List.replicate n true ++ l₂) : n ≤ maxCur 0 flags := by
  cases Nat.eq_zero_or_pos n with
  | inl hn => omega
  | inr hn =>
    have h1 : 0 + n ≤ maxCur 0 (List.replicate n true ++ l₂) :=
      maxCur_replicate l₂ n 0 hn
    have h2 : maxCur 0 (List.replicate n true ++ l₂) ≤
        maxCur 0 (l₁ ++ (List.replicate n true ++ l₂)) :=
      maxCur_append_right l₁ _ 0
    rw [h, List.append_assoc]
    omega

lemma run_index_of_decomp (flags : List Bool) (n : ℕ) (l₁ l₂ : List Bool)
    (h : flags = l₁ ++ List.replicate n true ++ l₂) :
    l₁.length + n ≤ flags.length ∧
      ∀ j, j < n → flags.getD (l₁.length + j) false = true := by
  subst h
  constructor
  · simp only [List.length_append, List.length_replicate]
    omega
  · intro j hj
    rw [List.append_assoc]
    have hidx : l₁.length + j < (l₁ ++ (List.replicate n true ++ l₂)).length := by
      simp only [List.length_append, List.length_replicate]
      omega
    rw [getD_eq_get _ _ false hidx]
    rw [List.getElem_append_right (by omega)]
    have hj2 : l₁.length + j - l₁.length < (List.replicate n true).length := by
      simp only [List.length_replicate]
      omega
    rw [List.getElem_append_left hj2]
    simp

lemma decomp_of_run_index (flags : List Bool) (n i : ℕ)
    (hle : i + n ≤ flags.length)
    (hrun : ∀ j, j < n → flags.getD (i + j) false = true) :
    ∃ l₁ l₂, flags = l₁ ++ List.replicate n true ++ l₂ := by
  refine ⟨flags.take i, flags.drop (i + n), ?_⟩
  have hmid : (flags.drop i).take n = List.replicate n true := by
    rw [List.eq_replicate_iff]
    constructor
    · simp only [List.length_take, List.length_drop]
      omega
    · intro b hb
      obtain ⟨j, hj, hbj⟩ := List.mem_iff_getElem.mp hb
      have hjn : j < n := by
        simp only [List.length_take, List.length_drop] at hj
        omega
      have hflag := hrun j hjn
      rw [getD_eq_get _ _ _ (by omega)] at hflag
      rw [List.getElem_take, List.getElem_drop] at hbj
      rw [← hbj]
      exact hflag
  rw [List.append_assoc, ← hmid,
    show flags.drop (i + n) = (flags.drop i).drop n by
      rw [List.drop_drop, Nat.add_comm],
    List.take_append_drop, List.take_append_drop]

lemma length_underwater (eq : List ℚ) : (underwater eq).length = eq.length := by
  simp [underwater, length_dd]

lemma underwater_getD (eq : List ℚ) (k : ℕ) (hk : k < eq.length) :
    (underwater eq).getD k false = decide ((dd eq).getD k 0 < 0) := by
  have h1 : k < (dd eq).length := by rw [length_dd]; exact hk
  have h2 : k < (underwater eq).length := by rw [length_underwater]; exact hk
  rw [getD_eq_get _ _ _ h2, getD_eq_get _ _ _ h1]
  simp [underwater]

lemma underwater_run_iff (eq : List ℚ) (i n : ℕ) :
    (i + n ≤ (underwater eq).length ∧
      ∀ j, j < n → (underwater eq).getD (i + j) false = true) ↔
    hasNegRun (dd eq) i n := by
  unfold hasNegRun
  rw [length_underwater, ← length_dd]
  constructor
  · rintro ⟨h1, h2⟩
    refine ⟨h1, fun j hj => ?_⟩
    have := h2 j hj
    rw [underwater_getD eq (i + j) (by rw [← length_dd]; omega)] at this
    exact of_decide_eq_true this
  · rintro ⟨h1, h2⟩
    refine ⟨h1, fun j hj => ?_⟩
    rw [underwater_getD eq (i + j) (by rw [← length_dd]; omega)]
    exact decide_eq_true (h2 j hj)

lemma cummaxFrom_of_chain (rest : List ℚ) :
    ∀ m, List.Chain (· ≤ ·) m rest → cummaxFrom m rest = rest := by
  induction rest with
  | nil => intro m _; rfl
  | cons y ys ih =>
    intro m hc
    rw [List.chain_cons] at hc
    simp [cummaxFrom, max_eq_right hc.1, ih y hc.2]

lemma roll_max_of_chain (eq : List ℚ) (h : eq.Chain' (· ≤ ·)) : roll_max eq = eq := by
  cases eq with
  | nil => rfl
  | cons x rest =>
    simp [roll_max, cummaxFrom_of_chain rest x h]

lemma maxCur_of_all_false (flags : List Bool) :
    (∀ f ∈ flags, f = false) → ∀ c, maxCur c flags = 0 := by
  induction flags with
  | nil => intro _ c; rfl
  | cons b rest ih =>
    intro h c
    have hb : b = false := h b (by simp)
    subst hb
    simp only [maxCur]
    exact ih (fun f hf => h f (by simp [hf])) 0

/-- C7: the accumulate-and-reset scan over the underwater flags (a left fold
carrying `(current_run, max_run)`) computes exactly the length of the longest
contiguous run of indices with `drawdown[t] < 0`: such a run of length
`max_dd_days` exists and no longer run does; and a monotonically
non-decreasing (all-positive) equity series yields `max_dd_days = 0`. -/
theorem max_dd_days_longest_run (eq : List ℚ) :
    (∃ i, hasNegRun (dd eq) i (max_dd_days eq)) ∧
    (∀ i n, hasNegRun (dd eq) i n → n ≤ max_dd_days eq) ∧
    (eq.Chain' (· ≤ ·) → (∀ x ∈ eq, 0 < x) → max_dd_days eq = 0) := by
  refine ⟨?_, ?_, ?_⟩
  · obtain ⟨l₁, l₂, h⟩ := maxCur_run (underwater eq) 0
    simp only [List.replicate_zero, List.nil_append] at h
    refine ⟨l₁.length, ?_⟩
    rw [← underwater_run_iff]
    unfold max_dd_days
    rw [maxDDaysOf_eq_maxCur]
    exact run_index_of_decomp _ _ _ _ h
  · intro i n hneg
    rw [← underwater_run_iff] at hneg
    obtain ⟨l₁, l₂, h⟩ := decomp_of_run_index _ n i hneg.1 hneg.2
    unfold max_dd_days
    rw [maxDDaysOf_eq_maxCur]
    exact maxCur_maximal _ n l₁ l₂ h
  · intro hchain hpos
    unfold max_dd_days
    rw [maxDDaysOf_eq_maxCur]
    apply maxCur_of_all_false
    intro f hf
    obtain ⟨k, hk, hfk⟩ := List.mem_iff_getElem.mp hf
    have hke : k < eq.length := by rw [← length_underwater eq]; exact hk
    have huk : (underwater eq)[k] = decide ((dd eq).getD k 0 < 0) := by
      rw [← getD_eq_get _ _ false hk, underwater_getD eq k hke]
    rw [← hfk, huk, dd_getD eq k hke, roll_max_of_chain eq hchain]
    have hx : 0 < eq.getD k 0 := by
      rw [getD_eq_get _ _ _ hke]
      exact hpos _ (List.getElem_mem hke)
    rw [div_self (ne_of_gt hx)]
    simp

/-- Witness for C7: the equity series `[1, 1/2, 1/4, 1]` has an underwater
run of length 2 starting at index 1, and the non-decreasing positive series
`[1, 2, 3]` has `max_dd_days = 0`. -/
theorem max_dd_days_longest_run_witness :
    2 ≤ max_dd_days [1, 1/2, 1/4, 1] ∧ max_dd_days [1, 2, 3] = 0 :=
  ⟨(max_dd_days_longest_run [1, 1/2, 1/4, 1]).2.1 1 2 (by
      refine ⟨?_, ?_⟩
      · rw [length_dd]
        norm_num
      · intro j hj
        interval_cases j <;>
          norm_num [dd, roll_max, cummaxFrom]),
   (max_dd_days_longest_run [1, 2, 3]).2.2
     (by norm_num [List.chain'_cons])
     (by intro x hx; rcases (by simpa using hx : x = 1 ∨ x = 2 ∨ x = 3) with
           h | h | h <;> norm_num [h])⟩

/-! ### C10: positions are binary -/

lemma mem_zipWith {α β γ : Type _} (f : α → β → γ) :
    ∀ (as : List α) (bs : List β) (c : γ),
      c ∈ List.zipWith f as bs → ∃ a b, c = f a b ∧ a ∈ as ∧ b ∈ bs := by
  intro as
  induction as with
  | nil => intro bs c hc; simp at hc
  | cons a as ih =>
    intro bs c hc
    cases bs with
    | nil => simp at hc
    | cons b bs =>
      rcases (by simpa using hc : c = f a b ∨ c ∈ List.zipWith f as bs) with h | h
      · exact ⟨a, b, h, by simp, by simp⟩
      · obtain ⟨a2, b2, h1, h2, h3⟩ := ih bs c h
        exact ⟨a2, b2, h1, by simp [h2], by simp [h3]⟩

lemma signalOf_binary (a b : Option ℚ) : signalOf a b = 0 ∨ signalOf a b = 1 := by
  cases a with
  | none => left; cases b <;> rfl
  | some x =>
    cases b with
    | none => left; rfl
    | some y =>
      by_cases h : y < x
      · right; simp [signalOf, h]
      · left; simp [signalOf, h]

/-- C10: for every input sequence and valid window pair, every element of the
position series is `0` or `1`, so the output meets the input precondition of
the cost model. -/
theorem position_binary (closes : List ℚ) (fast slow : ℕ)
    (_hf : 0 < fast) (_hs : 0 < slow) (_hfs : fast < slow) :
    ∀ x ∈ (sma_crossover_signals closes fast slow).position, x = 0 ∨ x = 1 := by
  intro x hx
  have hpos : (sma_crossover_signals closes fast slow).position =
      shiftFill (List.zipWith signalOf (rollingMean closes fast)
        (rollingMean closes slow)) := rfl
  rw [hpos] at hx
  rcases hsig : List.zipWith signalOf (rollingMean closes fast)
      (rollingMean closes slow) with _ | ⟨s, rest⟩
  · rw [hsig] at hx
    simp [shiftFill] at hx
  · rw [hsig] at hx
    rcases (by simpa [shiftFill] using hx :
        x = 0 ∨ x ∈ (s :: rest).dropLast) with h | h
    · left; exact h
    · have hx2 : x ∈ List.zipWith signalOf (rollingMean closes fast)
          (rollingMean closes slow) := by
        rw [hsig]
        exact (List.dropLast_sublist _).subset h
      obtain ⟨a, b, rfl, -, -⟩ := mem_zipWith signalOf _ _ x hx2
      exact signalOf_binary a b

/-- Witness for C10 at prices `[1, 2]`, `fast = 1`, `slow = 2`, element 1. -/
theorem position_binary_witness :
    (sma_crossover_signals [1, 2] 1 2).position.getD 1 0 = 0 ∨
      (sma_crossover_signals [1, 2] 1 2).position.getD 1 0 = 1 :=
  position_binary [1, 2] 1 2 (by decide) (by decide) (by decide) _ (by
    have h : (1 : ℕ) < (sma_crossover_signals [1, 2] 1 2).position.length := by
      rw [length_position]
      norm_num
    rw [getD_eq_get _ _ _ h]
    exact List.getElem_mem h)

/-! ### C5 and C6: cagr and sharpe -/

lemma equity_and_perf_eq (position : List ℚ) (ret : List (Option ℚ)) (rate : ℚ)
    (fe : ℚ) (hfe : (eq_s position ret rate).getLast? = some fe) :
    equity_and_perf position ret rate = some
      { final_equity := fe
        cagr := cagrOf fe (daily position ret rate).length
        sharpe := sharpeOf (daily position ret rate)
        max_dd := max_dd (eq_s position ret rate)
        max_dd_days := max_dd_days (eq_s position ret rate) } := by
  simp only [equity_and_perf]
  rw [hfe]

lemma cagrOf_nan (fe : ℚ) (n : ℕ) (h : n ≤ 252) : cagrOf fe n = PyFloat.nan := by
  unfold cagrOf
  rw [if_neg (by omega)]

lemma cagrOf_num (fe : ℚ) (n : ℕ) (h : 252 < n) :
    cagrOf fe n = PyFloat.num ((fe : ℝ) ^ ((252 : ℝ) / (n : ℝ)) - 1) := by
  unfold cagrOf
  rw [if_pos h]

lemma sharpeOf_nan_of_not_pos (d : List ℚ)
    (h : ¬ (2 ≤ d.length ∧ 0 < varQ d)) : sharpeOf d = PyFloat.nan := by
  unfold sharpeOf
  rw [if_neg h]

lemma sharpeOf_nan_of_short (d : List ℚ) (h : d.length ≤ 1) :
    sharpeOf d = PyFloat.nan :=
  sharpeOf_nan_of_not_pos d (fun hc => absurd hc.1 (by omega))

lemma equity_and_perf_example :
    equity_and_perf [0] [(none : Option ℚ)] 0 =
      some ⟨1, PyFloat.nan, PyFloat.nan, 0, 0⟩ := by
  have hfe : (eq_s [0] [(none : Option ℚ)] 0).getLast? = some 1 := by
    norm_num [eq_s, strat_ret, apply_transaction_costs, cumprod, cumprodFrom,
      List.range_succ]
  have hd : daily [0] [(none : Option ℚ)] 0 = [] := by
    norm_num [daily, strat_ret, apply_transaction_costs, List.range_succ]
  rw [equity_and_perf_eq [0] [none] 0 1 hfe, hd]
  have hmd : max_dd (eq_s [0] [(none : Option ℚ)] 0) = 0 := by
    norm_num [max_dd, dd, eq_s, strat_ret, apply_transaction_costs, cumprod,
      cumprodFrom, roll_max, cummaxFrom, List.range_succ]
  have hdays : max_dd_days (eq_s [0] [(none : Option ℚ)] 0) = 0 := by
    norm_num [max_dd_days, maxDDaysOf, underwater, uwStep, dd, eq_s, strat_ret,
      apply_transaction_costs, cumprod, cumprodFrom, roll_max, cummaxFrom,
      List.range_succ]
  rw [hmd, hdays]
  simp only [List.length_nil]
  rw [cagrOf_nan 1 0 (by omega), sharpeOf_nan_of_short [] (by simp)]

lemma equity_and_perf_example2 :
    equity_and_perf [0, 0] [some 0, some 0] 0 =
      some ⟨1, PyFloat.nan, PyFloat.nan, 0, 0⟩ := by
  have hfe : (eq_s [0, 0] [some (0 : ℚ), some 0] 0).getLast? = some 1 := by
    norm_num [eq_s, strat_ret, apply_transaction_costs, cumprod, cumprodFrom,
      List.range_succ, List.getLast?]
  have hd : daily [0, 0] [some (0 : ℚ), some 0] 0 = [0, 0] := by
    norm_num [daily, strat_ret, apply_transaction_costs, List.range_succ,
      List.filterMap_cons, List.filterMap_nil]
  have hmd : max_dd (eq_s [0, 0] [some (0 : ℚ), some 0] 0) = 0 := by
    norm_num [max_dd, dd, eq_s, strat_ret, apply_transaction_costs, cumprod,
      cumprodFrom, roll_max, cummaxFrom, List.range_succ]
  have hdays : max_dd_days (eq_s [0, 0] [some (0 : ℚ), some 0] 0) = 0 := by
    norm_num [max_dd_days, maxDDaysOf, underwater, uwStep, dd, eq_s, strat_ret,
      apply_transaction_costs, cumprod, cumprodFrom, roll_max, cummaxFrom,
      List.range_succ]
  rw [equity_and_perf_eq [0, 0] [some 0, some 0] 0 1 hfe, hd, hmd, hdays,
    show ([0, 0] : List ℚ).length = 2 from rfl, cagrOf_nan 1 2 (by omega),
    sharpeOf_nan_of_not_pos [0, 0]
      (fun hc => absurd hc.2 (by norm_num [varQ, muQ]))]

/-- C5 counterexample: on the input `[0]` with a single undefined return the
public `Perf` result carries the sentinel value `NaN` in its `cagr` field
(and likewise `sharpe`), not an explicit optional. -/
theorem perf_cagr_nan_cex :
    (equity_and_perf [0] [(none : Option ℚ)] 0).map Perf.cagr =
      some PyFloat.nan := by
  rw [equity_and_perf_example]
  rfl

/-- C5 (amended): when `cagr` or `sharpe` is not computable (`n ≤ 252`
return observations for `cagr`; a non-positive standard deviation for
`sharpe`, i.e. fewer than two observations or zero sample variance as in a
constant-return series), `equity_and_perf` stores the float sentinel `NaN`
in the corresponding `Perf` field; the console layer later decides via
`isnan` whether to print them. -/
theorem cagr_sharpe_nan_sentinel (position : List ℚ) (ret : List (Option ℚ))
    (rate : ℚ) (P : Perf)
    (hP : equity_and_perf position ret rate = some P) :
    ((daily position ret rate).length ≤ 252 → P.cagr = PyFloat.nan) ∧
    (¬ (2 ≤ (daily position ret rate).length ∧
        0 < varQ (daily position ret rate)) → P.sharpe = PyFloat.nan) := by
  obtain ⟨fe, hfe⟩ : ∃ fe, (eq_s position ret rate).getLast? = some fe := by
    cases hg : (eq_s position ret rate).getLast? with
    | none =>
      rw [show equity_and_perf position ret rate = none by
        simp only [equity_and_perf]; rw [hg]] at hP
      exact absurd hP (by simp)
    | some fe => exact ⟨fe, rfl⟩
  rw [equity_and_perf_eq position ret rate fe hfe] at hP
  have hPval := Option.some.inj hP
  constructor
  · intro h252
    rw [← hPval]
    exact cagrOf_nan fe _ h252
  · intro h1
    rw [← hPval]
    exact sharpeOf_nan_of_not_pos _ h1

/-- Witness for C5: the `cagr` clause on the input `[0]` with one undefined
return (`n = 0`), and the `sharpe` clause on the constant-return input
`[0, 0]` returns `[0, 0]` (`n = 2` but zero sample variance). -/
theorem cagr_sharpe_nan_sentinel_witness :
    (⟨1, PyFloat.nan, PyFloat.nan, 0, 0⟩ : Perf).cagr = PyFloat.nan ∧
    (⟨1, PyFloat.nan, PyFloat.nan, 0, 0⟩ : Perf).sharpe = PyFloat.nan :=
  ⟨(cagr_sharpe_nan_sentinel [0] [none] 0 _ equity_and_perf_example).1
      (by decide),
   (cagr_sharpe_nan_sentinel [0, 0] [some 0, some 0] 0 _
        equity_and_perf_example2).2
      (fun hc => absurd hc.2 (by norm_num [varQ, muQ, daily, strat_ret,
        apply_transaction_costs, List.range_succ, List.filterMap_cons,
        List.filterMap_nil]))⟩

/-- C6: `cagr` is defined (not the `NaN` sentinel) iff the number of defined
return observations `n` exceeds 252, in which case it equals
`final_equity ^ (252 / n) - 1`; for `n ≤ 252` it is undefined regardless of
the returns. -/
theorem cagr_defined_iff (position : List ℚ) (ret : List (Option ℚ))
    (rate : ℚ) (P : Perf)
    (hP : equity_and_perf position ret rate = some P) :
    P.cagr = (if 252 < (daily position ret rate).length
      then PyFloat.num ((P.final_equity : ℝ) ^
        ((252 : ℝ) / ((daily position ret rate).length : ℝ)) - 1)
      else PyFloat.nan) ∧
    (P.cagr ≠ PyFloat.nan ↔ 252 < (daily position ret rate).length) := by
  obtain ⟨fe, hfe⟩ : ∃ fe, (eq_s position ret rate).getLast? = some fe := by
    cases hg : (eq_s position ret rate).getLast? with
    | none =>
      rw [show equity_and_perf position ret rate = none by
        simp only [equity_and_perf]; rw [hg]] at hP
      exact absurd hP (by simp)
    | some fe => exact ⟨fe, rfl⟩
  rw [equity_and_perf_eq position ret rate fe hfe] at hP
  have hPval := Option.some.inj hP
  rw [← hPval]
  by_cases hn : 252 < (daily position ret rate).length
  · rw [if_pos hn]
    constructor
    · exact cagrOf_num fe _ hn
    · rw [cagrOf_num fe _ hn]
      exact ⟨fun _ => hn, fun _ hcon => PyFloat.noConfusion hcon⟩
  · rw [if_neg hn]
    constructor
    · exact cagrOf_nan fe _ (by omega)
    · rw [cagrOf_nan fe _ (by omega)]
      simp [hn]

/-- Witness for C6 on the input `[0]` with one undefined return
(`n = 0 ≤ 252`). -/
theorem cagr_defined_iff_witness :
    (⟨1, PyFloat.nan, PyFloat.nan, 0, 0⟩ : Perf).cagr =
      (if 252 < (daily [0] [(none : Option ℚ)] 0).length
        then PyFloat.num
          (((⟨1, PyFloat.nan, PyFloat.nan, 0, 0⟩ : Perf).final_equity : ℝ) ^
            ((252 : ℝ) / ((daily [0] [(none : Option ℚ)] 0).length : ℝ)) - 1)
        else PyFloat.nan) ∧
    ((⟨1, PyFloat.nan, PyFloat.nan, 0, 0⟩ : Perf).cagr ≠ PyFloat.nan ↔
      252 < (daily [0] [(none : Option ℚ)] 0).length) :=
  cagr_defined_iff [0] [none] 0 _ equity_and_perf_example

end Backtest
